import Mathlib

/-!
# Verification of the vision-system ingestion pipeline

Shallow embedding of the repository's two source programs: the file stager
(`ImageRenameHandler`: stability wait, numeric renaming, retry loop, grayscale
copy) and the rectangle extractor (`process_image`: fixed inverse threshold,
contour → 4-vertex polygon qualification, moment centroid, coordinate file),
together with the global-counter intake variant (`get_new_filename`).

Filenames are modelled as `List Char`; image moments and perimeter lengths as
rationals; the external geometry primitives (contour discovery, polygon
approximation, moment computation) as abstract data carried by each contour.
-/

namespace VisionSystem

/-! ## Decimal digits: printing and parsing

Python renders a non-negative integer with `f"{n}"` (decimal, no leading
zeros) and parses with `int(s)`.  We model printing by `natChars` and parsing
by `strToNat` (most-significant-digit-first fold), built on a little-endian
digit list `natDigitsRev` defined with structural fuel so that all of it
reduces in the kernel. -/

/-- The character for a single decimal digit value (`0 ↦ '0'`, …, `9 ↦ '9'`). -/
def digitChar (d : Nat) : Char := Char.ofNat (48 + d)

/-- The decimal value of a digit character (`'0' ↦ 0`, …). -/
def charVal (c : Char) : Nat := c.toNat - 48

/-- Little-endian decimal digits, fuel-driven so it is structurally recursive. -/
def natDigitsRevAux : Nat → Nat → List Nat
  | 0, _ => []
  | _ + 1, 0 => []
  | fuel + 1, n + 1 => (n + 1) % 10 :: natDigitsRevAux fuel ((n + 1) / 10)

/-- Little-endian decimal digits of `n` (empty for `0`). -/
def natDigitsRev (n : Nat) : List Nat := natDigitsRevAux n n

/-- Decimal rendering of a natural number, as Python's `str`/f-string does. -/
def natChars (n : Nat) : List Char :=
  if n = 0 then ['0'] else ((natDigitsRev n).reverse.map digitChar)

/-- Decimal rendering of an integer, as Python's f-string does
(`'-'` followed by the digits of the absolute value when negative). -/
def intChars (i : Int) : List Char :=
  if i < 0 then '-' :: natChars i.natAbs else natChars i.natAbs

/-- Value of a little-endian digit list. -/
def digitsVal (l : List Nat) : Nat := l.foldr (fun d acc => d + 10 * acc) 0

/-- Value of a most-significant-first digit list. -/
def parseVal (l : List Nat) : Nat := l.foldl (fun a d => a * 10 + d) 0

/-- Decimal parse of a digit string, as Python's `int` on an all-digit string. -/
def strToNat (s : List Char) : Nat := parseVal (s.map charVal)

theorem digitsVal_natDigitsRevAux (fuel : Nat) :
    ∀ n : Nat, n ≤ fuel → digitsVal (natDigitsRevAux fuel n) = n := by
  induction fuel with
  | zero => intro n hn; interval_cases n; rfl
  | succ fuel ih =>
    intro n hn
    match n with
    | 0 => rfl
    | n + 1 =>
      have hlt : (n + 1) / 10 < n + 1 := Nat.div_lt_self (Nat.succ_pos n) (by omega)
      have hle : (n + 1) / 10 ≤ fuel := by omega
      simp only [natDigitsRevAux, digitsVal, List.foldr]
      have := ih ((n + 1) / 10) hle
      simp only [digitsVal] at this
      rw [this]
      omega

theorem digitsVal_natDigitsRev (n : Nat) : digitsVal (natDigitsRev n) = n :=
  digitsVal_natDigitsRevAux n n (Nat.le_refl n)

theorem natDigitsRevAux_lt_ten (fuel : Nat) :
    ∀ n d, d ∈ natDigitsRevAux fuel n → d < 10 := by
  induction fuel with
  | zero => intro n d hd; simp [natDigitsRevAux] at hd
  | succ fuel ih =>
    intro n d hd
    match n with
    | 0 => simp [natDigitsRevAux] at hd
    | n + 1 =>
      simp only [natDigitsRevAux, List.mem_cons] at hd
      rcases hd with h | h
      · omega
      · exact ih _ _ h

theorem natDigitsRev_lt_ten {n d : Nat} (hd : d ∈ natDigitsRev n) : d < 10 :=
  natDigitsRevAux_lt_ten n n d hd

theorem natDigitsRevAux_ne_nil (fuel n : Nat) (h1 : n ≠ 0) (h2 : n ≤ fuel) :
    natDigitsRevAux fuel n ≠ [] := by
  match fuel, n with
  | 0, n => omega
  | fuel + 1, 0 => omega
  | fuel + 1, n + 1 => simp [natDigitsRevAux]

theorem charVal_digitChar {d : Nat} (hd : d < 10) : charVal (digitChar d) = d := by
  interval_cases d <;> rfl

theorem isDigit_digitChar {d : Nat} (hd : d < 10) : (digitChar d).isDigit = true := by
  interval_cases d <;> rfl

theorem parseVal_append_singleton (l : List Nat) (d : Nat) :
    parseVal (l ++ [d]) = parseVal l * 10 + d := by
  simp [parseVal, List.foldl_append]

theorem parseVal_reverse (l : List Nat) : parseVal l.reverse = digitsVal l := by
  induction l with
  | nil => rfl
  | cons d l ih =>
    simp only [List.reverse_cons, parseVal_append_singleton, ih, digitsVal, List.foldr]
    omega

/-- Printing then parsing a natural number is the identity. -/
theorem strToNat_natChars (n : Nat) : strToNat (natChars n) = n := by
  by_cases h : n = 0
  · subst h; rfl
  · simp only [strToNat, natChars, h, if_false, List.map_reverse, List.map_map]
    have hmap : (natDigitsRev n).map (charVal ∘ digitChar) = (natDigitsRev n).map id :=
      List.map_congr_left (fun d hd => charVal_digitChar (natDigitsRev_lt_ten hd))
    rw [hmap, List.map_id, parseVal_reverse, digitsVal_natDigitsRev]

/-- Every character of a printed natural number is a decimal digit. -/
theorem natChars_all_digit {n : Nat} {c : Char} (hc : c ∈ natChars n) :
    c.isDigit = true := by
  by_cases h : n = 0
  · subst h
    simp [natChars] at hc
    subst hc
    rfl
  · simp only [natChars, h, if_false, List.map_reverse, List.mem_reverse,
      List.mem_map] at hc
    obtain ⟨d, hd, rfl⟩ := hc
    exact isDigit_digitChar (natDigitsRev_lt_ten hd)

theorem natChars_ne_nil (n : Nat) : natChars n ≠ [] := by
  by_cases h : n = 0
  · subst h; simp [natChars]
  · simp only [natChars, h, if_false, List.map_reverse, ne_eq, List.reverse_eq_nil_iff,
      List.map_eq_nil_iff]
    exact natDigitsRevAux_ne_nil n n h (Nat.le_refl n)

/-! ## List splitting helpers -/

theorem takeWhile_append_of_stop (p : Char → Bool) (xs : List Char) (y : Char)
    (ys : List Char) (hxs : ∀ x ∈ xs, p x = true) (hy : p y = false) :
    (xs ++ y :: ys).takeWhile p = xs := by
  induction xs with
  | nil => simp [hy]
  | cons x xs ih =>
    have hx : p x = true := hxs x (List.mem_cons_self x xs)
    have ih' := ih (fun z hz => hxs z (List.mem_cons_of_mem x hz))
    simp [List.takeWhile_cons, hx, ih']

theorem dropWhile_append_of_stop (p : Char → Bool) (xs : List Char) (y : Char)
    (ys : List Char) (hxs : ∀ x ∈ xs, p x = true) (hy : p y = false) :
    (xs ++ y :: ys).dropWhile p = y :: ys := by
  induction xs with
  | nil => simp [hy]
  | cons x xs ih =>
    have hx : p x = true := hxs x (List.mem_cons_self x xs)
    have ih' := ih (fun z hz => hxs z (List.mem_cons_of_mem x hz))
    simp [List.dropWhile_cons, hx, ih']

/-! ## `os.path.splitext` on base names

Python splits at the last dot of the base name, except that a base name whose
characters before that dot are all dots (e.g. `".bashrc"`, `"..png"`) has
no extension. -/

/-- Whether a character differs from `'.'`. -/
def notDot (c : Char) : Bool := c ≠ '.'

theorem notDot_eq_true {c : Char} (h : c ≠ '.') : notDot c = true := by
  simp [notDot, h]

theorem ne_of_notDot {c : Char} (h : notDot c = true) : c ≠ '.' := by
  simpa [notDot] using h

/-- `os.path.splitext` restricted to a base name (no directory separators):
returns `(root, extension)`. -/
def splitext (s : List Char) : List Char × List Char :=
  match s.reverse.dropWhile notDot with
  | [] => (s, [])
  | _ :: nameRev =>
    if nameRev.any notDot then
      (nameRev.reverse, '.' :: (s.reverse.takeWhile notDot).reverse)
    else (s, [])

/-- An extension as produced by `splitext`: empty, or a dot followed by
dot-free characters. -/
def ExtOk (ext : List Char) : Prop :=
  ext = [] ∨ ∃ cs : List Char, ext = '.' :: cs ∧ '.' ∉ cs

/-- `splitext` on `root ++ ext` recovers the pair, whenever `root` is a
non-empty digit string and `ext` is a well-formed extension. -/
theorem splitext_digits_append {root ext : List Char} (hne : root ≠ [])
    (hdig : ∀ c ∈ root, c.isDigit = true) (hext : ExtOk ext) :
    splitext (root ++ ext) = (root, ext) := by
  have hrootdot : ∀ c ∈ root.reverse, notDot c = true := by
    intro c hc
    have hd := hdig c (List.mem_reverse.mp hc)
    refine notDot_eq_true ?_
    intro h
    rw [h] at hd
    exact absurd hd (by decide)
  rcases hext with rfl | ⟨cs, rfl, hcs⟩
  · have hdrop : root.reverse.dropWhile notDot = [] :=
      List.dropWhile_eq_nil_iff.mpr hrootdot
    rw [List.append_nil]
    simp [splitext, hdrop]
  · have hcsdot : ∀ c ∈ cs.reverse, notDot c = true := by
      intro c hc
      refine notDot_eq_true ?_
      intro h
      rw [h] at hc
      exact hcs (List.mem_reverse.mp hc)
    have hrev : (root ++ '.' :: cs).reverse = cs.reverse ++ '.' :: root.reverse := by
      simp
    have hdrop := dropWhile_append_of_stop notDot cs.reverse '.'
      root.reverse hcsdot (by decide)
    have htake := takeWhile_append_of_stop notDot cs.reverse '.'
      root.reverse hcsdot (by decide)
    have hany : root.reverse.any notDot = true := by
      rcases List.exists_mem_of_ne_nil root hne with ⟨c, hc⟩
      exact List.any_eq_true.mpr
        ⟨c, List.mem_reverse.mpr hc, hrootdot c (List.mem_reverse.mpr hc)⟩
    simp [splitext, hrev, hdrop, htake, hany]

/-- The extension returned by `splitext` is always well-formed. -/
theorem splitext_snd_extOk (s : List Char) : ExtOk (splitext s).2 := by
  unfold splitext
  split
  · exact Or.inl rfl
  · rename_i d nameRev heq
    by_cases hany : nameRev.any notDot = true
    · rw [if_pos hany]
      refine Or.inr ⟨_, rfl, ?_⟩
      intro hmem
      have hmem' := List.mem_takeWhile_imp (List.mem_reverse.mp hmem)
      exact ne_of_notDot hmem' rfl
    · rw [if_neg hany]
      exact Or.inl rfl

/-! ## File Stager: numeric renaming (`ImageRenameHandler.rename_new_image`)

The destination folder is modelled as the list of base names it contains, in
listing order.  The scan collects the values of entries whose extension-
stripped name is a digit string (`str.isdigit` + `int`), the new ID is
`max + 1` (or `1` when no numeric entry exists), and the arrived file is
renamed in place to `<ID><original extension>`. -/

/-- Python's `str.isdigit` for ASCII names: non-empty and all digits. -/
def pyIsDigit (s : List Char) : Bool := !s.isEmpty && s.all Char.isDigit

/-- The numeric values of folder entries whose extension-stripped base name is
a digit string (the `current_numbers` list of `rename_new_image`). -/
def current_numbers (folder : List (List Char)) : List Nat :=
  folder.filterMap (fun f =>
    if pyIsDigit (splitext f).1 then some (strToNat (splitext f).1) else none)

/-- The next ID: `max(current_numbers) + 1 if current_numbers else 1`. -/
def next_number (folder : List (List Char)) : Nat :=
  let ns := current_numbers folder
  if ns.isEmpty then 1 else ns.foldl Nat.max 0 + 1

/-- One staging of file `f`, which has already landed in `folder` (so the scan
sees it): returns the folder after the in-place rename, and the assigned ID. -/
def stageEvent (folder : List (List Char)) (f : List Char) :
    List (List Char) × Nat :=
  let ext := (splitext f).2
  let n := next_number folder
  (folder.erase f ++ [natChars n ++ ext], n)

/-- Sequential stagings: each arrival is appended to the folder (the file
lands), then staged; returns the list of assigned IDs in arrival order. -/
def stageRunAux (folder : List (List Char)) : List (List Char) → List Nat
  | [] => []
  | f :: fs =>
    let folder1 := folder ++ [f]
    let st := stageEvent folder1 f
    st.2 :: stageRunAux st.1 fs

/-- `stage` applied to a list of arrivals landing one at a time in an
initially empty destination: the assigned IDs in arrival order. -/
def stageRun (arrivals : List (List Char)) : List Nat := stageRunAux [] arrivals

theorem pyIsDigit_natChars (n : Nat) : pyIsDigit (natChars n) = true := by
  unfold pyIsDigit
  rw [Bool.and_eq_true, List.all_eq_true]
  constructor
  · cases h : (natChars n).isEmpty
    · rfl
    · exact absurd (List.isEmpty_iff.mp h) (natChars_ne_nil n)
  · intro c hc
    exact natChars_all_digit hc

theorem foldl_max_range' (k : Nat) : (List.range' 1 k).foldl Nat.max 0 = k := by
  induction k with
  | zero => rfl
  | succ k ih =>
    rw [List.range'_concat, List.foldl_append, ih]
    simp only [List.foldl_cons, List.foldl_nil]
    unfold Nat.max
    rw [sup_eq_right.mpr (show k ≤ 1 + 1 * k by omega)]
    omega

theorem current_numbers_append (f1 f2 : List (List Char)) :
    current_numbers (f1 ++ f2) = current_numbers f1 ++ current_numbers f2 := by
  simp [current_numbers, List.filterMap_append]

/-- Invariant after `k` sequential stagings into an initially empty folder:
the numeric scan yields exactly `1, …, k` in listing order, and every entry
has a digit-string stem. -/
def FolderInv (k : Nat) (folder : List (List Char)) : Prop :=
  current_numbers folder = List.range' 1 k ∧
  ∀ f ∈ folder, pyIsDigit (splitext f).1 = true

theorem stageRunAux_ids (fs : List (List Char)) :
    ∀ (k : Nat) (folder : List (List Char)), FolderInv k folder →
      (∀ f ∈ fs, pyIsDigit (splitext f).1 = false) →
      stageRunAux folder fs = List.range' (k + 1) fs.length := by
  induction fs with
  | nil => intro k folder _ _; rfl
  | cons f fs ih =>
    intro k folder hinv hfs
    obtain ⟨hnums, hdigs⟩ := hinv
    have hf : pyIsDigit (splitext f).1 = false := hfs f (List.mem_cons_self f fs)
    have hfnotmem : f ∉ folder := by
      intro hmem
      have hd := hdigs f hmem
      rw [hf] at hd
      exact Bool.false_ne_true hd
    have hcn1 : current_numbers (folder ++ [f]) = List.range' 1 k := by
      rw [current_numbers_append, hnums]
      simp [current_numbers, hf]
    have hnext : next_number (folder ++ [f]) = k + 1 := by
      unfold next_number
      rw [hcn1]
      cases k with
      | zero => rfl
      | succ k => rw [if_neg (by simp [List.range'_succ]), foldl_max_range']
    have hstagedsplit :
        splitext (natChars (k + 1) ++ (splitext f).2) = (natChars (k + 1), (splitext f).2) :=
      splitext_digits_append (natChars_ne_nil _) (fun c hc => natChars_all_digit hc)
        (splitext_snd_extOk f)
    have herase : (folder ++ [f]).erase f = folder := by
      rw [List.erase_append_right _ hfnotmem, List.erase_cons_head]
      simp
    have hstep : stageEvent (folder ++ [f]) f =
        (folder ++ [natChars (k + 1) ++ (splitext f).2], k + 1) := by
      unfold stageEvent
      rw [hnext, herase]
    have hinv' : FolderInv (k + 1) (folder ++ [natChars (k + 1) ++ (splitext f).2]) := by
      constructor
      · rw [current_numbers_append, hnums]
        have : current_numbers [natChars (k + 1) ++ (splitext f).2] = [k + 1] := by
          simp [current_numbers, hstagedsplit, pyIsDigit_natChars, strToNat_natChars]
        rw [this, List.range'_concat]
        simp [Nat.add_comm]
      · intro g hg
        rcases List.mem_append.mp hg with hg | hg
        · exact hdigs g hg
        · rw [List.mem_singleton.mp hg, hstagedsplit]
          exact pyIsDigit_natChars (k + 1)
    have hrest := ih (k + 1) _ hinv' (fun g hg => hfs g (List.mem_cons_of_mem f hg))
    simp only [stageRunAux, hstep, hrest]
    rfl

/-- C1 cannot hold as stated: the scan of the destination folder sees the
just-arrived file itself, so an arrival whose own base name is numeric
perturbs the sequence.  Staging the single file `7.png` into an initially
empty destination assigns ID `8`, not `1`. -/
theorem stage_ids_counterexample :
    stageRun [['7', '.', 'p', 'n', 'g']] = [8] ∧
    stageRun [['7', '.', 'p', 'n', 'g']] ≠ [1] := by
  constructor
  · rfl
  · decide

/-- C1 (amended): `stage` scans the destination folder (which already
contains the just-arrived file) for entries whose extension-stripped base
name parses as a non-negative integer and assigns `max + 1`, or `1` if no
numeric entry exists; consequently, for `N` files staged one at a time into
an initially empty destination, the assigned IDs are exactly `1..N` in
arrival order, provided no arriving file's own extension-stripped base name
is itself a digit string. -/
theorem stage_ids_sequential (arrivals : List (List Char))
    (h : ∀ f ∈ arrivals, pyIsDigit (splitext f).1 = false) :
    stageRun arrivals = List.range' 1 arrivals.length :=
  stageRunAux_ids arrivals 0 [] ⟨rfl, by simp⟩ h

/-- Witness: staging `a.png` then `b.png` into an empty destination assigns
IDs `1, 2`. -/
theorem stage_ids_sequential_witness :
    stageRun [['a', '.', 'p', 'n', 'g'], ['b', '.', 'p', 'n', 'g']] =
      List.range' 1 2 :=
  stage_ids_sequential _ (by decide)

/-! ## File Stager: rename retry loop (`rename_new_image`, lines 49–73)

Each loop iteration probes the world once: the source-existence check
followed, when the source exists, by the `os.rename` attempt.  The outcome of
probe `i` is abstracted as `RenameOutcome`.  The loop runs while
`attempt < max_attempts` (10); a missing source or a lock error
(`winerror == 32`) increments `attempt` and sleeps one second, any other
`OSError` aborts at once, and the `while`–`else` clause reports exhaustion.
Since every continuing iteration increments `attempt` and sleeps exactly
once, the probe index equals both the attempt counter and the seconds of
backoff so far. -/

/-- The outcome the filesystem offers a single rename attempt. -/
inductive RenameOutcome where
  | sourceMissing
  | locked
  | otherError
  | success
deriving DecidableEq

/-- Result of the retry loop; each constructor carries the attempt counter at
exit, which also equals the total seconds of one-second backoffs slept. -/
inductive RenameResult where
  | renamed (attempts : Nat)
  | fatal (attempts : Nat)
  | exhausted (attempts : Nat)
deriving DecidableEq

/-- The retry loop with `fuel = max_attempts - attempt` remaining retryable
iterations. -/
def renameLoop (world : Nat → RenameOutcome) : Nat → Nat → RenameResult
  | 0, attempt => .exhausted attempt
  | fuel + 1, attempt =>
    match world attempt with
    | .sourceMissing => renameLoop world fuel (attempt + 1)
    | .locked => renameLoop world fuel (attempt + 1)
    | .otherError => .fatal attempt
    | .success => .renamed attempt

/-- The rename step of `rename_new_image`: `max_attempts = 10`, starting at
`attempt = 0`. -/
def rename_retry (world : Nat → RenameOutcome) : RenameResult :=
  renameLoop world 10 0

/-- A retryable probe outcome: the source was missing, or the target was
locked (`winerror == 32`). -/
def Retryable (o : RenameOutcome) : Prop := o = .sourceMissing ∨ o = .locked

theorem renameLoop_skip_retryable (world : Nat → RenameOutcome) (n : Nat) :
    ∀ fuel attempt, n ≤ fuel →
      (∀ i, i < n → Retryable (world (attempt + i))) →
      renameLoop world fuel attempt = renameLoop world (fuel - n) (attempt + n) := by
  induction n with
  | zero => intro fuel attempt _ _; rfl
  | succ n ih =>
    intro fuel attempt hle hretry
    match fuel with
    | fuel + 1 =>
      have h0 : Retryable (world attempt) := by
        have := hretry 0 (Nat.succ_pos n)
        simpa using this
      have hrest : ∀ i, i < n → Retryable (world (attempt + 1 + i)) := by
        intro i hi
        have := hretry (i + 1) (by omega)
        rw [show attempt + (i + 1) = attempt + 1 + i by omega] at this
        exact this
      have hstep : renameLoop world (fuel + 1) attempt = renameLoop world fuel (attempt + 1) := by
        rcases h0 with h | h <;> simp [renameLoop, h]
      rw [hstep, ih fuel (attempt + 1) (by omega) hrest]
      congr 1 <;> omega

/-- C6: during the rename step, a lock/in-use failure (and a transiently
missing source) is retried up to a fixed budget of 10 attempts with one
second of backoff per failed attempt, while any other OS-level rename error
is fatal immediately, without retry.  In particular (first conjunct) a target
locked for exactly 3 attempts and then released makes the loop succeed on the
4th attempt (probe index 3, after 3 seconds of backoff) with no error; a
non-lock error after `k < 10` retryable probes aborts at probe `k`; and 10
consecutive lock failures exhaust the budget. -/
theorem rename_retry_spec (world : Nat → RenameOutcome) :
    ((∀ i, i < 3 → world i = .locked) → world 3 = .success →
      rename_retry world = .renamed 3) ∧
    (∀ k, k < 10 → (∀ i, i < k → Retryable (world i)) → world k = .otherError →
      rename_retry world = .fatal k) ∧
    ((∀ i, i < 10 → world i = .locked) → rename_retry world = .exhausted 10) := by
  refine ⟨?_, ?_, ?_⟩
  · intro hlock hsucc
    have h := renameLoop_skip_retryable world 3 10 0 (by omega)
      (fun i hi => Or.inr (by simpa using hlock i hi))
    unfold rename_retry
    rw [h]
    simp [renameLoop, hsucc]
  · intro k hk hretry herr
    have h := renameLoop_skip_retryable world k 10 0 (by omega)
      (fun i hi => by simpa using hretry i hi)
    unfold rename_retry
    rw [h]
    have : 10 - k = (10 - k - 1) + 1 := by omega
    rw [this]
    simp [renameLoop, herr]
  · intro hlock
    have h := renameLoop_skip_retryable world 10 10 0 (by omega)
      (fun i hi => Or.inr (by simpa using hlock i hi))
    unfold rename_retry
    rw [h]
    rfl

/-- Witness for `rename_retry_spec`: a world locked on the first three probes
then released gives success at probe 3; a world failing fatally at once gives
`fatal 0`; a world locked throughout gives `exhausted 10`. -/
theorem rename_retry_spec_witness :
    rename_retry (fun i => if i < 3 then .locked else .success) = .renamed 3 ∧
    rename_retry (fun _ => .otherError) = .fatal 0 ∧
    rename_retry (fun _ => .locked) = .exhausted 10 := by
  refine ⟨?_, ?_, ?_⟩
  · exact (rename_retry_spec (fun i => if i < 3 then .locked else .success)).1
      (fun i hi => by simp [hi]) (by simp)
  · exact (rename_retry_spec (fun _ => .otherError)).2.1 0 (by omega)
      (fun i hi => absurd hi (by omega)) rfl
  · exact (rename_retry_spec (fun _ => .locked)).2.2 (fun i _ => rfl)

/-! ## File Stager: stability wait (`wait_for_file`, lines 24–31)

Time is measured in polls: the path-existence check number `k` happens after
`k` half-second sleeps, i.e. at time `0.5·k` seconds.  After a failed check
the loop sleeps once more and returns `False` when the elapsed time exceeds
the 10-second timeout, i.e. when `0.5·(k+1) > 10`, equivalently `k ≥ 20`;
otherwise it polls again.  `existsAt k` tells whether the path exists at poll
`k`. -/

/-- The polling loop of `wait_for_file`, at poll number `k`. -/
def waitLoop (existsAt : Nat → Bool) (k : Nat) : Bool :=
  if existsAt k then true
  else if 20 < k + 1 then false
  else waitLoop existsAt (k + 1)
termination_by 21 - k
decreasing_by omega

/-- `wait_for_file` with its default 10-second timeout and 0.5-second poll. -/
def wait_for_file (existsAt : Nat → Bool) : Bool := waitLoop existsAt 0

theorem waitLoop_true_iff (existsAt : Nat → Bool) :
    ∀ n k, n = 21 - k → k ≤ 20 →
      (waitLoop existsAt k = true ↔ ∃ j, k ≤ j ∧ j ≤ 20 ∧ existsAt j = true) := by
  intro n
  induction n with
  | zero => intro k hn hk; omega
  | succ n ih =>
    intro k hn hk
    rw [waitLoop]
    by_cases hex : existsAt k = true
    · simp only [hex, if_true]
      exact ⟨fun _ => ⟨k, Nat.le_refl k, hk, hex⟩, fun _ => trivial⟩
    · simp only [hex, Bool.false_eq_true, if_false]
      by_cases hto : 20 < k + 1
      · simp only [hto, if_true]
        constructor
        · intro h; exact absurd h (by simp)
        · rintro ⟨j, hkj, hj20, hexj⟩
          have : j = k := by omega
          rw [this] at hexj
          exact absurd hexj hex
      · simp only [hto, if_false]
        rw [ih (k + 1) (by omega) (by omega)]
        constructor
        · rintro ⟨j, hkj, hj20, hexj⟩
          exact ⟨j, by omega, hj20, hexj⟩
        · rintro ⟨j, hkj, hj20, hexj⟩
          refine ⟨j, ?_, hj20, hexj⟩
          rcases Nat.eq_or_lt_of_le hkj with rfl | h
          · rw [hexj] at hex; exact absurd rfl hex
          · omega

/-- C8: the stability wait terminates on every execution with a definite
boolean answer: it returns success exactly when the observed path exists at
one of the finitely many polls in the 10-second window (polls `0..20`, every
0.5 seconds), and returns the failure (`FileNeverAppeared` at the caller)
exactly when the path appears at none of them — it never blocks forever. -/
theorem wait_for_file_spec (existsAt : Nat → Bool) :
    (wait_for_file existsAt = true ↔ ∃ j, j ≤ 20 ∧ existsAt j = true) ∧
    (wait_for_file existsAt = false ↔ ∀ j, j ≤ 20 → existsAt j = false) := by
  have h := waitLoop_true_iff existsAt 21 0 rfl (by omega)
  constructor
  · rw [wait_for_file, h]
    constructor
    · rintro ⟨j, _, hj20, hexj⟩; exact ⟨j, hj20, hexj⟩
    · rintro ⟨j, hj20, hexj⟩; exact ⟨j, Nat.zero_le j, hj20, hexj⟩
  · constructor
    · intro hfalse j hj20
      cases hexj : existsAt j
      · rfl
      · have : wait_for_file existsAt = true := by
          rw [wait_for_file, h]
          exact ⟨j, Nat.zero_le j, hj20, hexj⟩
        rw [hfalse] at this
        exact absurd this (by simp)
    · intro hall
      cases hw : wait_for_file existsAt
      · rfl
      · rw [wait_for_file, h] at hw
        obtain ⟨j, _, hj20, hexj⟩ := hw
        rw [hall j hj20] at hexj
        exact absurd hexj (by simp)

/-- Witness for `wait_for_file_spec`: a path that appears at poll 5 is
reported present; a path that never appears is reported missing. -/
theorem wait_for_file_spec_witness :
    wait_for_file (fun k => k == 5) = true ∧
    wait_for_file (fun _ => false) = false := by
  constructor
  · exact (wait_for_file_spec (fun k => k == 5)).1.mpr ⟨5, by omega, by simp⟩
  · exact (wait_for_file_spec (fun _ => false)).2.mpr (fun j _ => rfl)

/-! ## Global-counter intake variant (`get_new_filename`, lines 137–162)

The process state is the pair of module-level counters `image_counter` and
`text_counter`.  An image file bumps `image_counter` and is named
`image_<image_counter>.<ext>`; a `.txt` file is named
`coords_<image_counter>.txt`; anything else keeps its name.  Nothing in the
program ever assigns `text_counter` after its initialisation to `0`, so the
embedded transition never changes the `text` field. -/

/-- The valid image extensions, already lowercased. -/
def IMAGE_EXTENSIONS : List (List Char) :=
  [".jpg".toList, ".jpeg".toList, ".png".toList, ".bmp".toList,
   ".tiff".toList, ".tif".toList]

/-- ASCII lowercasing of one character, as Python's `str.lower` acts on the
ASCII extensions involved here. -/
def asciiLower (c : Char) : Char :=
  if 'A' ≤ c ∧ c ≤ 'Z' then Char.ofNat (c.toNat + 32) else c

/-- The module-level counters of the intake variant. -/
structure Counters where
  image : Nat
  text : Nat
deriving DecidableEq

/-- Counters at process start: both globals are initialised to `0`. -/
def initCounters : Counters := ⟨0, 0⟩

/-- `get_new_filename` on a base name: returns the updated counters and the
new base name. -/
def get_new_filename (st : Counters) (originalName : List Char) :
    Counters × List Char :=
  if IMAGE_EXTENSIONS.contains ((splitext originalName).2.map asciiLower) then
    ({ st with image := st.image + 1 },
      "image_".toList ++ natChars (st.image + 1) ++
        (splitext originalName).2.map asciiLower)
  else if (splitext originalName).2.map asciiLower = ".txt".toList then
    (st, "coords_".toList ++ natChars st.image ++ ".txt".toList)
  else
    (st, originalName)

/-- The counters after a sequence of `get_new_filename` calls. -/
def runRenames (st : Counters) (trace : List (List Char)) : Counters :=
  trace.foldl (fun s f => (get_new_filename s f).1) st

/-- Whether a base name has an image extension after lowercasing. -/
def isImageName (f : List Char) : Bool :=
  IMAGE_EXTENSIONS.contains ((splitext f).2.map asciiLower)

/-- The number of image files in a trace. -/
def countImages (trace : List (List Char)) : Nat :=
  (trace.filter isImageName).length

theorem get_new_filename_text (st : Counters) (f : List Char) :
    (get_new_filename st f).1.text = st.text := by
  unfold get_new_filename
  split
  · rfl
  · split <;> rfl

theorem get_new_filename_image (st : Counters) (f : List Char) :
    (get_new_filename st f).1.image =
      if isImageName f then st.image + 1 else st.image := by
  by_cases h : isImageName f = true
  · have h' : IMAGE_EXTENSIONS.contains ((splitext f).2.map asciiLower) = true := h
    unfold get_new_filename
    rw [if_pos h', if_pos h]
  · rw [Bool.not_eq_true] at h
    have h' : IMAGE_EXTENSIONS.contains ((splitext f).2.map asciiLower) = false := h
    unfold get_new_filename
    rw [if_neg (by rw [h']; exact Bool.false_ne_true)]
    rw [if_neg (show ¬isImageName f = true by rw [h]; exact Bool.false_ne_true)]
    split <;> rfl

theorem runRenames_counters (trace : List (List Char)) :
    ∀ st : Counters, runRenames st trace =
      ⟨st.image + countImages trace, st.text⟩ := by
  induction trace with
  | nil => intro st; simp [runRenames, countImages]
  | cons f fs ih =>
    intro st
    have hstep : runRenames st (f :: fs) =
        runRenames (get_new_filename st f).1 fs := rfl
    rw [hstep, ih]
    have htext := get_new_filename_text st f
    have himage := get_new_filename_image st f
    by_cases h : isImageName f = true
    · simp only [h, if_true] at himage
      simp [himage, htext, countImages, h]
      omega
    · rw [Bool.not_eq_true] at h
      simp only [h, Bool.false_eq_true, if_false] at himage
      simp [himage, htext, countImages, h]

/-- C10: in the global-counter intake variant, `text_counter` is declared but
never incremented, so after any sequence of renames from process start it is
still `0`, while `image_counter` equals the number of image files renamed so
far; hence a newly observed `.txt` file is named `coords_<n>.txt` where `n`
is the current image count — in particular a `.txt` file arriving before any
image is named `coords_0.txt`. -/
theorem get_new_filename_txt_counter (trace : List (List Char)) (txt : List Char)
    (htxt : (splitext txt).2.map asciiLower = ".txt".toList) :
    (runRenames initCounters trace).text = 0 ∧
    (runRenames initCounters trace).image = countImages trace ∧
    (get_new_filename (runRenames initCounters trace) txt).2 =
      "coords_".toList ++ natChars (countImages trace) ++ ".txt".toList ∧
    (countImages trace = 0 →
      (get_new_filename (runRenames initCounters trace) txt).2 =
        "coords_0.txt".toList) := by
  have hrun := runRenames_counters trace initCounters
  have himg : (runRenames initCounters trace).image = countImages trace := by
    rw [hrun]; simp [initCounters]
  have htext : (runRenames initCounters trace).text = 0 := by
    rw [hrun]; simp [initCounters]
  have hname : (get_new_filename (runRenames initCounters trace) txt).2 =
      "coords_".toList ++ natChars (countImages trace) ++ ".txt".toList := by
    unfold get_new_filename
    rw [htxt]
    rw [if_neg (by decide), if_pos rfl, himg]
  refine ⟨htext, himg, hname, ?_⟩
  intro h0
  rw [hname, h0]
  rfl

/-- Witness: after renaming the image `shot.png`, a `.txt` arrival is named
`coords_1.txt`; with an empty trace it is named `coords_0.txt`. -/
theorem get_new_filename_txt_counter_witness :
    (get_new_filename (runRenames initCounters ["shot.png".toList]) "a.txt".toList).2 =
      "coords_".toList ++ natChars (countImages ["shot.png".toList]) ++ ".txt".toList ∧
    (get_new_filename (runRenames initCounters []) "a.txt".toList).2 =
      "coords_0.txt".toList := by
  constructor
  · exact (get_new_filename_txt_counter ["shot.png".toList] "a.txt".toList
      (by decide)).2.2.1
  · exact (get_new_filename_txt_counter [] "a.txt".toList (by decide)).2.2.2 rfl

/-! ## Rectangle Extractor (`process_image`)

The geometry primitives are external collaborators: a discovered contour is
abstracted as its perimeter (`cv2.arcLength(cnt, True)`), its polygon
approximation vertex count as a function of the tolerance
(`len(cv2.approxPolyDP(cnt, eps, True))`), and its raw moments
`m00, m10, m01` (`cv2.moments(cnt)`), all over the rationals (exact stand-in
for the floating-point values).  Python's `int()` on a float truncates toward
zero. -/

/-- An abstract contour as `process_image` consumes it. -/
structure Contour where
  arcLength : ℚ
  approxAt : ℚ → Nat
  m00 : ℚ
  m10 : ℚ
  m01 : ℚ

/-- Truncation toward zero, the behaviour of Python's `int()` on a float. -/
def ratTrunc (q : ℚ) : Int := if 0 ≤ q then ⌊q⌋ else ⌈q⌉

/-- The polygon-approximation tolerance: `0.02 * cv2.arcLength(cnt, True)`. -/
def epsilonOf (c : Contour) : ℚ := (2 / 100) * c.arcLength

/-- Whether the contour is treated as a rectangle candidate:
`len(approx) == 4`. -/
def isRectCandidate (c : Contour) : Bool := c.approxAt (epsilonOf c) == 4

/-- What the loop body of `process_image` appends for one contour: `none`
when the contour does not qualify or has zero `m00`, otherwise the centre. -/
def contourEmit (c : Contour) : Option (Int × Int) :=
  if isRectCandidate c then
    if c.m00 = 0 then none
    else some (ratTrunc (c.m10 / c.m00), ratTrunc (c.m01 / c.m00))
  else none

/-- The `rectangle_centers` list accumulated over the discovered contours, in
discovery order. -/
def rectangle_centers (cs : List Contour) : List (Int × Int) :=
  cs.filterMap contourEmit

/-- The segmentation step: `cv2.threshold(image, 50, 255, THRESH_BINARY_INV)`
maps each pixel `v` to `0` when `v > thresh` and to `maxval` otherwise. -/
def threshold_binary_inv (thresh maxval : Nat) (img : List (List Nat)) :
    List (List Nat) :=
  img.map (fun row => row.map (fun v => if thresh < v then 0 else maxval))

/-- The fixed segmentation used by `process_image`. -/
def segment (img : List (List Nat)) : List (List Nat) :=
  threshold_binary_inv 50 255 img

/-- Pixel access in a row-major grid. -/
def pix (img : List (List Nat)) (i j : Nat) : Option Nat :=
  img[i]?.bind (fun row => row[j]?)

/-- The tail of `process_image` after the contour loop: returns the centres
and, when at least one centre exists, the lines of the coordinate artifact;
`none` means the Coordinate Writer is not invoked at all. -/
def extractResult (cs : List Contour) :
    List (Int × Int) × Option (List (Int × Int)) :=
  if (rectangle_centers cs).isEmpty then (rectangle_centers cs, none)
  else (rectangle_centers cs, some (rectangle_centers cs))

/-- C2: `extract` never divides by a zero `m00`: a qualifying contour with
`m00 = 0` is skipped (contributes nothing to the output), and a qualifying
contour with `m00 ≠ 0` contributes exactly the centre
`(m10/m00, m01/m00)` truncated toward zero; conversely every emitted centre
arises that way from some qualifying contour with `m00 ≠ 0`. -/
theorem extract_moment_safety (cs : List Contour) :
    (∀ c ∈ cs, isRectCandidate c = true →
      (c.m00 = 0 → contourEmit c = none) ∧
      (c.m00 ≠ 0 → contourEmit c =
        some (ratTrunc (c.m10 / c.m00), ratTrunc (c.m01 / c.m00)))) ∧
    (∀ p ∈ rectangle_centers cs, ∃ c ∈ cs, isRectCandidate c = true ∧
      c.m00 ≠ 0 ∧
      p = (ratTrunc (c.m10 / c.m00), ratTrunc (c.m01 / c.m00))) := by
  constructor
  · intro c _ hcand
    constructor
    · intro h0
      unfold contourEmit
      rw [if_pos hcand, if_pos h0]
    · intro h0
      unfold contourEmit
      rw [if_pos hcand, if_neg h0]
  · intro p hp
    rw [rectangle_centers, List.mem_filterMap] at hp
    obtain ⟨c, hc, hemit⟩ := hp
    refine ⟨c, hc, ?_⟩
    unfold contourEmit at hemit
    by_cases hcand : isRectCandidate c = true
    · rw [if_pos hcand] at hemit
      by_cases h0 : c.m00 = 0
      · rw [if_pos h0] at hemit
        exact absurd hemit (by simp)
      · rw [if_neg h0] at hemit
        exact ⟨hcand, h0, (Option.some_injective _ hemit).symm⟩
    · rw [if_neg hcand] at hemit
      exact absurd hemit (by simp)

/-- Witness for `extract_moment_safety`: of two qualifying contours, the one
with `m00 = 0` is skipped and the one with moments `(2, 5, 3)` yields the
centre `(2, 1)` (`5/2` and `3/2` truncated toward zero). -/
theorem extract_moment_safety_witness :
    rectangle_centers
      [⟨8, fun _ => 4, 0, 1, 1⟩, ⟨8, fun _ => 4, 2, 5, 3⟩] = [(2, 1)] := by
  have h := (extract_moment_safety
    [⟨8, fun _ => 4, 0, 1, 1⟩, ⟨8, fun _ => 4, 2, 5, 3⟩]).1
  have h1 := (h ⟨8, fun _ => 4, 0, 1, 1⟩ (by simp) rfl).1 rfl
  have h2 := (h ⟨8, fun _ => 4, 2, 5, 3⟩ (by simp) rfl).2 (by norm_num)
  have e1 : ratTrunc ((5 : ℚ) / 2) = 2 := by
    rw [ratTrunc, if_pos (by norm_num)]
    norm_num
  have e2 : ratTrunc ((3 : ℚ) / 2) = 1 := by
    rw [ratTrunc, if_pos (by norm_num)]
    norm_num
  simp [rectangle_centers, h1, h2, e1, e2]

/-- C3: a discovered contour is treated as a rectangle candidate iff its
polygon approximation, at tolerance `2%` of the contour's perimeter, has
exactly 4 vertices; no convexity or aspect-ratio condition is applied — the
only way a 4-vertex contour drops out of the centre computation is a zero
`m00` moment. -/
theorem rect_candidate_iff (c : Contour) :
    (isRectCandidate c = true ↔ c.approxAt ((2 / 100) * c.arcLength) = 4) ∧
    (c.approxAt ((2 / 100) * c.arcLength) = 4 → contourEmit c = none →
      c.m00 = 0) := by
  have hiff : isRectCandidate c = true ↔
      c.approxAt ((2 / 100) * c.arcLength) = 4 := by
    unfold isRectCandidate epsilonOf
    exact beq_iff_eq
  refine ⟨hiff, ?_⟩
  intro h4 hemit
  have hcand : isRectCandidate c = true := hiff.mpr h4
  unfold contourEmit at hemit
  rw [if_pos hcand] at hemit
  by_cases h0 : c.m00 = 0
  · exact h0
  · rw [if_neg h0] at hemit
    exact absurd hemit (by simp)

/-- Witness for `rect_candidate_iff`: a contour whose approximation has 4
vertices (convex or not) qualifies; one with 5 vertices does not. -/
theorem rect_candidate_iff_witness :
    isRectCandidate ⟨10, fun _ => 4, 1, 1, 1⟩ = true ∧
    isRectCandidate ⟨10, fun _ => 5, 1, 1, 1⟩ = false := by
  constructor
  · exact (rect_candidate_iff ⟨10, fun _ => 4, 1, 1, 1⟩).1.mpr rfl
  · cases h : isRectCandidate ⟨10, fun _ => 5, 1, 1, 1⟩
    · rfl
    · exact absurd ((rect_candidate_iff ⟨10, fun _ => 5, 1, 1, 1⟩).1.mp h)
        (by norm_num)

/-- C4: segmentation maps every pixel by the fixed inverse-binary rule with
threshold 50 and max value 255: the output at a pixel is a fixed function of
that pixel's value alone (not of any image statistic), pixels darker than 50
become foreground 255, and pixels lighter than 50 become 0. -/
theorem segment_pixelwise (img : List (List Nat)) (i j v : Nat)
    (hv : pix img i j = some v) :
    pix (segment img) i j = some (if 50 < v then 0 else 255) ∧
    (v < 50 → pix (segment img) i j = some 255) ∧
    (50 < v → pix (segment img) i j = some 0) := by
  have hmain : pix (segment img) i j = some (if 50 < v then 0 else 255) := by
    cases hrow : img[i]? with
    | none => rw [pix, hrow] at hv; simp at hv
    | some row =>
      rw [pix, hrow] at hv
      simp only [Option.some_bind] at hv
      rw [pix, segment, threshold_binary_inv, List.getElem?_map, hrow]
      simp only [Option.map_some', Option.some_bind]
      rw [List.getElem?_map, hv]
      rfl
  refine ⟨hmain, ?_, ?_⟩
  · intro hlt
    rw [hmain, if_neg (by omega)]
  · intro hgt
    rw [hmain, if_pos hgt]

/-- Witness for `segment_pixelwise` on the image `[[10, 200]]`: the dark
pixel becomes 255 and the light pixel becomes 0. -/
theorem segment_pixelwise_witness :
    pix (segment [[10, 200]]) 0 0 = some 255 ∧
    pix (segment [[10, 200]]) 0 1 = some 0 := by
  constructor
  · exact (segment_pixelwise [[10, 200]] 0 0 10 rfl).2.1 (by omega)
  · exact (segment_pixelwise [[10, 200]] 0 1 200 rfl).2.2 (by omega)

/-- C5: when no discovered contour qualifies as a rectangle candidate (in
particular for a blank image, whose mask yields no contours at all),
`process_image` produces the empty centre sequence — not an error — and
returns before invoking the Coordinate Writer, so no artifact is produced. -/
theorem no_rectangles_no_artifact (cs : List Contour)
    (h : ∀ c ∈ cs, isRectCandidate c = false) :
    rectangle_centers cs = [] ∧ (extractResult cs).1 = [] ∧
    (extractResult cs).2 = none := by
  have hrc : rectangle_centers cs = [] := by
    rw [rectangle_centers, List.filterMap_eq_nil_iff]
    intro c hc
    unfold contourEmit
    rw [if_neg (by rw [h c hc]; exact Bool.false_ne_true)]
  refine ⟨hrc, ?_, ?_⟩
  · simp [extractResult, hrc]
  · simp [extractResult, hrc]

/-- Witness for `no_rectangles_no_artifact`: a contourless (blank) image
yields no centres and no artifact; so does an image whose only contour
approximates to 5 vertices. -/
theorem no_rectangles_no_artifact_witness :
    (extractResult []).2 = none ∧
    rectangle_centers [⟨10, fun _ => 5, 1, 1, 1⟩] = [] := by
  constructor
  · exact (no_rectangles_no_artifact [] (by simp)).2.2
  · exact (no_rectangles_no_artifact [⟨10, fun _ => 5, 1, 1, 1⟩]
      (fun c hc => by rw [List.mem_singleton.mp hc]; rfl)).1

/-! ## Coordinate Writer (`process_image`, lines 271–273) and the naive
line-parser of the round-trip property

The writer opens `<stem>_coords.txt` in mode `"w"` (truncate/create) and
executes `f.write(f"{center[0]}, {center[1]}\n")` for each centre in order;
the produced file content is the concatenation of those lines. -/

/-- The body of one coordinate line: `f"{cX}, {cY}"`. -/
def coordLineBody (c : Int × Int) : List Char :=
  intChars c.1 ++ (',' :: ' ' :: intChars c.2)

/-- One write of the writer loop: `f"{cX}, {cY}\n"`. -/
def coordLine (c : Int × Int) : List Char := coordLineBody c ++ ['\n']

/-- The full content of the coordinate artifact: one line per centre, in the
order supplied. -/
def writeCoords : List (Int × Int) → List Char
  | [] => []
  | c :: cs => coordLine c ++ writeCoords cs

/-- Whether a character differs from `','`. -/
def notComma (c : Char) : Bool := c ≠ ','

/-- Modelled from the spec: the round-trip property names a "naive
line-parser" that is not part of the source; splitting the artifact content
at newlines is its first step. -/
def splitLines : List Char → List (List Char)
  | [] => [[]]
  | c :: cs =>
    if c = '\n' then [] :: splitLines cs
    else
      match splitLines cs with
      | [] => [[c]]
      | l :: ls => (c :: l) :: ls

/-- Modelled from the spec: the naive parser reads a decimal natural from an
all-digit token. -/
def parseNatChars (s : List Char) : Option Nat :=
  if pyIsDigit s then some (strToNat s) else none

/-- Modelled from the spec: the naive parser reads an integer, an optional
leading minus sign before the digits. -/
def parseIntChars (s : List Char) : Option Int :=
  if s.head? = some '-' then (parseNatChars s.tail).map (fun n => -(n : Int))
  else (parseNatChars s).map (fun n => (n : Int))

/-- Modelled from the spec: the naive parser splits a line at the first
`", "` and reads the two integers. -/
def parseLine (s : List Char) : Option (Int × Int) :=
  match s.dropWhile notComma with
  | ',' :: ' ' :: rest =>
    match parseIntChars (s.takeWhile notComma), parseIntChars rest with
    | some a, some b => some (a, b)
    | _, _ => none
  | _ => none

/-- Modelled from the spec: the naive line-parser of the round-trip property
— split the artifact content into lines, drop empty lines, parse each. -/
def parseCoords (s : List Char) : List (Int × Int) :=
  ((splitLines s).filter (fun l => !l.isEmpty)).filterMap parseLine

theorem intChars_ne_nil (i : Int) : intChars i ≠ [] := by
  unfold intChars
  split
  · exact List.cons_ne_nil _ _
  · exact natChars_ne_nil _

theorem mem_intChars {i : Int} {c : Char} (hc : c ∈ intChars i) :
    c.isDigit = true ∨ c = '-' := by
  unfold intChars at hc
  split at hc
  · rcases List.mem_cons.mp hc with rfl | h
    · exact Or.inr rfl
    · exact Or.inl (natChars_all_digit h)
  · exact Or.inl (natChars_all_digit hc)

theorem intChars_no_newline {i : Int} {c : Char} (hc : c ∈ intChars i) :
    c ≠ '\n' := by
  rcases mem_intChars hc with h | rfl
  · intro he
    rw [he] at h
    exact absurd h (by decide)
  · decide

theorem intChars_notComma {i : Int} {c : Char} (hc : c ∈ intChars i) :
    notComma c = true := by
  rcases mem_intChars hc with h | rfl
  · have hne : c ≠ ',' := by
      intro he
      rw [he] at h
      exact absurd h (by decide)
    simp [notComma, hne]
  · decide

theorem splitLines_ne_nil (s : List Char) : splitLines s ≠ [] := by
  match s with
  | [] => simp [splitLines]
  | c :: cs =>
    unfold splitLines
    split
    · exact List.cons_ne_nil _ _
    · split
      · exact List.cons_ne_nil _ _
      · exact List.cons_ne_nil _ _

theorem splitLines_append_newline (l rest : List Char) (hl : '\n' ∉ l) :
    splitLines (l ++ '\n' :: rest) = l :: splitLines rest := by
  induction l with
  | nil => simp [splitLines]
  | cons c cs ih =>
    have hc : ¬c = '\n' := fun h => hl (h ▸ List.mem_cons_self c cs)
    have ih' := ih (fun h => hl (List.mem_cons_of_mem c h))
    rw [List.cons_append]
    show (if c = '\n' then [] :: splitLines (cs ++ '\n' :: rest)
      else
        match splitLines (cs ++ '\n' :: rest) with
        | [] => [[c]]
        | l :: ls => (c :: l) :: ls) = (c :: cs) :: splitLines rest
    rw [if_neg hc, ih']

theorem parseNatChars_natChars (n : Nat) : parseNatChars (natChars n) = some n := by
  rw [parseNatChars, if_pos (pyIsDigit_natChars n), strToNat_natChars]

theorem head?_natChars_ne_minus (n : Nat) : (natChars n).head? ≠ some '-' := by
  cases hnc : natChars n with
  | nil => exact absurd hnc (natChars_ne_nil n)
  | cons c cs =>
    have hcd : c.isDigit = true := natChars_all_digit (hnc ▸ List.mem_cons_self c cs)
    simp only [List.head?_cons, ne_eq, Option.some_inj]
    intro he
    rw [he] at hcd
    exact absurd hcd (by decide)

/-- Printing then parsing an integer is the identity. -/
theorem parseIntChars_intChars (i : Int) : parseIntChars (intChars i) = some i := by
  by_cases h : i < 0
  · rw [intChars, if_pos h, parseIntChars]
    simp only [List.head?_cons, if_pos rfl, List.tail_cons]
    rw [parseNatChars_natChars]
    show some (-(i.natAbs : Int)) = some i
    congr 1
    omega
  · rw [intChars, if_neg h, parseIntChars,
      if_neg (head?_natChars_ne_minus i.natAbs), parseNatChars_natChars]
    show some ((i.natAbs : Int)) = some i
    congr 1
    omega

/-- Parsing one written line body recovers the centre. -/
theorem parseLine_coordLineBody (c : Int × Int) :
    parseLine (coordLineBody c) = some c := by
  have hx : ∀ d ∈ intChars c.1, notComma d = true := fun d hd => intChars_notComma hd
  have hdrop := dropWhile_append_of_stop notComma (intChars c.1) ','
    (' ' :: intChars c.2) hx (by decide)
  have htake := takeWhile_append_of_stop notComma (intChars c.1) ','
    (' ' :: intChars c.2) hx (by decide)
  rw [parseLine, coordLineBody, hdrop, htake, parseIntChars_intChars c.1]
  simp only [parseIntChars_intChars c.2]

theorem coordLineBody_no_newline (c : Int × Int) : '\n' ∉ coordLineBody c := by
  intro hmem
  rcases List.mem_append.mp hmem with h | h
  · exact intChars_no_newline h rfl
  · rcases List.mem_cons.mp h with h' | h'
    · exact absurd h'.symm (by decide)
    · rcases List.mem_cons.mp h' with h'' | h''
      · exact absurd h''.symm (by decide)
      · exact intChars_no_newline h'' rfl

theorem coordLineBody_ne_nil (c : Int × Int) : coordLineBody c ≠ [] := by
  unfold coordLineBody
  intro h
  exact intChars_ne_nil c.1 (List.append_eq_nil.mp h).1

/-- C7: the Coordinate Writer (truncate/create, one `"<x>, <y>"` line per
centre, in order) followed by the naive line-parser recovers exactly the
sequence of centres passed in. -/
theorem parseCoords_writeCoords (centers : List (Int × Int)) :
    parseCoords (writeCoords centers) = centers := by
  induction centers with
  | nil => rfl
  | cons c cs ih =>
    have hw : writeCoords (c :: cs) =
        coordLineBody c ++ '\n' :: writeCoords cs := by
      rw [writeCoords, coordLine, List.append_assoc]
      rfl
    rw [parseCoords, hw,
      splitLines_append_newline _ _ (coordLineBody_no_newline c)]
    have hne : (!(coordLineBody c).isEmpty) = true := by
      cases hb : coordLineBody c with
      | nil => exact absurd hb (coordLineBody_ne_nil c)
      | cons x xs => rfl
    simp only [List.filter_cons, hne, if_true, List.filterMap_cons,
      parseLine_coordLineBody c]
    rw [parseCoords] at ih
    rw [ih]

/-! ## Pipeline connectivity: staged names vs. the staging watcher

The Stager copies a staged file `<ID><ext>` to the staging folder under the
name `f"{name_only}_grayscale{ext}"`; the staging watcher
(`ImageHandler.on_created`) dispatches a creation event to `process_image`
iff `"grayscale" in os.path.basename(path)`; `process_image` writes its
artifact as `f"{base_name.split('_')[0]}_coords.txt"` into the same folder. -/

/-- The marker substring tested by the staging watcher. -/
def grayscaleMarker : List Char := "grayscale".toList

/-- Whether `pat` is an initial segment of `s` (character-list version of
Python's prefix test inside substring search). -/
def startsWithC : List Char → List Char → Bool
  | [], _ => true
  | _ :: _, [] => false
  | p :: ps, c :: cs => p == c && startsWithC ps cs

/-- Python's `pat in s` substring containment. -/
def containsStr (pat : List Char) : List Char → Bool
  | [] => startsWithC pat []
  | c :: cs => startsWithC pat (c :: cs) || containsStr pat cs

/-- The staging watcher's dispatch predicate: `"grayscale" in basename`. -/
def staging_dispatch (baseName : List Char) : Bool :=
  containsStr grayscaleMarker baseName

/-- The copy name built by the Stager: `f"{name_only}_grayscale{ext}"` where
`name_only, ext = os.path.splitext(new_filename)`. -/
def copy_filename_of (newFilename : List Char) : List Char :=
  (splitext newFilename).1 ++ ('_' :: grayscaleMarker) ++ (splitext newFilename).2

/-- Whether a character differs from `'_'`. -/
def notUnderscore (c : Char) : Bool := c ≠ '_'

/-- The artifact name built by `process_image`:
`f"{base_name.split('_')[0]}_coords.txt"`. -/
def coords_txt_filename (baseName : List Char) : List Char :=
  baseName.takeWhile notUnderscore ++ "_coords.txt".toList

theorem startsWithC_append (pat t : List Char) :
    startsWithC pat (pat ++ t) = true := by
  induction pat with
  | nil => rfl
  | cons p ps ih => simp [startsWithC, ih]

theorem containsStr_self_append (pat t : List Char) :
    containsStr pat (pat ++ t) = true := by
  match pat with
  | [] =>
    match t with
    | [] => rfl
    | c :: cs => simp [containsStr, startsWithC]
  | p :: ps =>
    have h := startsWithC_append (p :: ps) t
    rw [List.cons_append] at h
    simp [containsStr, h]

theorem containsStr_append_left (pat s a : List Char)
    (h : containsStr pat s = true) : containsStr pat (a ++ s) = true := by
  induction a with
  | nil => exact h
  | cons x xs ih => simp [containsStr, ih]

theorem containsStr_head_notMem (ps s : List Char) (h : 'g' ∉ s) :
    containsStr ('g' :: ps) s = false := by
  induction s with
  | nil => rfl
  | cons c cs ih =>
    have hc : ('g' == c) = false := by
      cases hgc : ('g' == c)
      · rfl
      · exact absurd (eq_of_beq hgc).symm
          (fun he => h (he ▸ List.mem_cons_self c cs))
    have ih' := ih (fun hm => h (List.mem_cons_of_mem c hm))
    simp [containsStr, startsWithC, hc, ih']

theorem natChars_no_g {n : Nat} : 'g' ∉ natChars n := by
  intro hmem
  have := natChars_all_digit hmem
  exact absurd this (by decide)

theorem natChars_notUnderscore {n : Nat} {c : Char} (hc : c ∈ natChars n) :
    notUnderscore c = true := by
  have hd := natChars_all_digit hc
  have hne : c ≠ '_' := by
    intro he
    rw [he] at hd
    exact absurd hd (by decide)
  simp [notUnderscore, hne]

/-- C9: every copy the Stager places in the staging folder is named
`<ID>_grayscale<ext>`, which contains the marker substring `"grayscale"`, so
the staging watcher dispatches it to the extractor; the artifact name the
extractor then derives is `<ID>_coords.txt`, which does not contain the
marker, so its creation event is dropped and the extractor never
re-processes its own outputs. -/
theorem pipeline_connectivity (n : Nat) (ext : List Char) (hext : ExtOk ext) :
    staging_dispatch (copy_filename_of (natChars n ++ ext)) = true ∧
    coords_txt_filename (copy_filename_of (natChars n ++ ext)) =
      natChars n ++ "_coords.txt".toList ∧
    staging_dispatch (coords_txt_filename (copy_filename_of (natChars n ++ ext))) =
      false := by
  have hsplit : splitext (natChars n ++ ext) = (natChars n, ext) :=
    splitext_digits_append (natChars_ne_nil n)
      (fun c hc => natChars_all_digit hc) hext
  have hcopy : copy_filename_of (natChars n ++ ext) =
      natChars n ++ '_' :: (grayscaleMarker ++ ext) := by
    rw [copy_filename_of, hsplit]
    simp
  have hcoords : coords_txt_filename (copy_filename_of (natChars n ++ ext)) =
      natChars n ++ "_coords.txt".toList := by
    rw [coords_txt_filename, hcopy,
      takeWhile_append_of_stop notUnderscore (natChars n) '_'
        (grayscaleMarker ++ ext)
        (fun c hc => natChars_notUnderscore hc) (by decide)]
  refine ⟨?_, hcoords, ?_⟩
  · rw [staging_dispatch, hcopy]
    have h1 : containsStr grayscaleMarker (grayscaleMarker ++ ext) = true :=
      containsStr_self_append grayscaleMarker ext
    have h2 := containsStr_append_left grayscaleMarker
      (grayscaleMarker ++ ext) ['_'] h1
    exact containsStr_append_left grayscaleMarker
      ('_' :: (grayscaleMarker ++ ext)) (natChars n) h2
  · rw [hcoords, staging_dispatch]
    have hm : grayscaleMarker = 'g' :: "rayscale".toList := by decide
    rw [hm]
    apply containsStr_head_notMem
    intro hmem
    rcases List.mem_append.mp hmem with h | h
    · exact natChars_no_g h
    · exact absurd h (by decide)

/-- Witness for `pipeline_connectivity` at ID `3` with extension `.png`:
`3_grayscale.png` is dispatched; `3_coords.txt` is not. -/
theorem pipeline_connectivity_witness :
    staging_dispatch (copy_filename_of (natChars 3 ++ ".png".toList)) = true ∧
    staging_dispatch
      (coords_txt_filename (copy_filename_of (natChars 3 ++ ".png".toList))) =
      false := by
  have h := pipeline_connectivity 3 ".png".toList
    (Or.inr ⟨"png".toList, by decide, by decide⟩)
  exact ⟨h.1, h.2.2⟩

end VisionSystem
